import Mathlib

/-!
Verification of the CTWPF course recommender (`src/recommender.py`).

The embedding models Python dicts as association lists `List (String × v)`
whose entry order is the dict insertion order (Python 3.7+ semantics) and
whose keys are unique for dicts actually built by the code.  Float weights
are modelled as rationals `ℚ`; every arithmetic identity proved here is an
identity of the real-number formulas the code computes.  The external
Gemini collaborator appears as explicit parameters: a term-expansion
function `String → List String` (its deterministic behaviour as seen
through the per-process cache) for the scoring engine, and explicit
outcome data types for the two wrapper functions whose error handling is
under scrutiny.
-/

set_option maxRecDepth 4000

namespace Team404

/-- Association list backing a Python dict; entry order is insertion order. -/
abbrev KW := List (String × ℚ)

/-- Keys of an association list, in order. -/
def keysOf {α : Type} (d : List (String × α)) : List String := d.map Prod.fst

/-- First-match lookup, `d.get(k)` on a Python dict (keys are unique there). -/
def alookup {α : Type} : List (String × α) → String → Option α
  | [], _ => none
  | (k, v) :: rest, x => if k = x then some v else alookup rest x

/-- `d.get(k, dflt)` for weight dicts. -/
def alookupD (d : KW) (k : String) (dflt : ℚ) : ℚ := (alookup d k).getD dflt

/-- `d[k] = v` on a Python dict: update in place if the key exists, else append. -/
def aset {α : Type} : List (String × α) → String → α → List (String × α)
  | [], k, v => [(k, v)]
  | (k', v') :: rest, k, v =>
    if k' = k then (k', v) :: rest else (k', v') :: aset rest k v

/-- `self.STOPWORDS` from `CTWPFRecommender.__init__` (recommender.py lines 26-31). -/
def STOPWORDS : List String :=
  ["강의", "수업", "학점", "교수", "시험", "과제", "평가", "출석",
   "중간고사", "기말고사", "이해", "개요", "목표", "방법", "분석",
   "활용", "이론", "실습", "소개", "기초", "응용", "진행", "관련",
   "학년", "전공", "필수", "선택", "학생", "사용자", "및", "의", "등", "대하여"]

/-- `get_idf_weight` (recommender.py lines 111-112): 1.5 for terms longer
than 2 characters, else 1.0. -/
def get_idf_weight (word : String) : ℚ := if 2 < word.length then 3/2 else 1

/-- The common-term list of `calculate_ctwp_score` (lines 178-179):
`(keys(student) ∩ keys(course)) - STOPWORDS`, as a duplicate-free list.
The Python code materialises this as a set; the list order here is the
student-dict key order, which is irrelevant to every set-like use. -/
def ctTerms (student ck : KW) : List String :=
  ((keysOf student).filter (fun k => decide (k ∈ keysOf ck ∧ k ∉ STOPWORDS))).dedup

/-- The CT component accumulated by lines 181-187:
`Σ student[t] * course[t] * idf(t)` over the common terms. -/
def ct_score (student ck : KW) : ℚ :=
  ((ctTerms student ck).map
    (fun t => alookupD student t 1 * alookupD ck t 1 * get_idf_weight t)).sum

/-- Insert a (term, weight) pair into a weight-descending list, keeping the
inserted (originally earlier) element before ties: the stable descending
sort of Python `sorted(..., key=lambda x: x[1], reverse=True)`. -/
def insertByWeight (x : String × ℚ) : List (String × ℚ) → List (String × ℚ)
  | [] => [x]
  | y :: ys => if y.2 ≤ x.2 then x :: y :: ys else y :: insertByWeight x ys

/-- Stable sort of dict items by weight, descending (line 191). -/
def sortByWeightDesc : List (String × ℚ) → List (String × ℚ)
  | [] => []
  | x :: xs => insertByWeight x (sortByWeightDesc xs)

/-- `sorted(student_dict.items(), key=..., reverse=True)[:5]` (line 191). -/
def top5 (student : KW) : List (String × ℚ) := (sortByWeightDesc student).take 5

/-- Inner loop of the WP component (lines 196-201) over one expansion list.
Threads the running `matches` list exactly as the code does: a propagated
match is recorded as the string `e ++ "(←" ++ s ++ ")"`. Returns the WP
contribution of this expansion list and the final `matches`. -/
def wpInner (ck : KW) (s : String) (w : ℚ) :
    List String → List String → ℚ × List String
  | [], m => (0, m)
  | e :: es, m =>
    if e ∈ keysOf ck then
      if e ∈ STOPWORDS ∨ e ∈ m then wpInner ck s w es m
      else
        let r := wpInner ck s w es (m ++ [e ++ "(←" ++ s ++ ")"])
        (w * (4/5) * alookupD ck e 1 + r.1, r.2)
    else wpInner ck s w es m

/-- Outer loop of the WP component (lines 193-201) over the selected
profile terms, skipping stopword terms. -/
def wpLoop (ck : KW) (expand : String → List String) :
    List (String × ℚ) → List String → ℚ × List String
  | [], m => (0, m)
  | sw :: rest, m =>
    if sw.1 ∈ STOPWORDS then wpLoop ck expand rest m
    else
      let r1 := wpInner ck sw.1 sw.2 (expand sw.1) m
      let r2 := wpLoop ck expand rest r1.2
      (r1.1 + r2.1, r2.2)

/-- The WP component of `calculate_ctwp_score` (lines 189-201): the inner
loops run on the top-5 items of the student dict, starting from the CT
matches. `expand` stands for `expand_keyword_with_gemini` viewed as a
function (the collaborator with its per-process cache is deterministic). -/
def wpScore (expand : String → List String) (student ck : KW) : ℚ :=
  (wpLoop ck expand (top5 student) (ctTerms student ck)).1

/-- `calculate_ctwp_score` (lines 176-204): returns
`((0.5*ct + 0.5*wp) * 5.0, list(set(matches)))`. The Python `list(set(...))`
is modelled by `dedup`; its element order is arbitrary in the source. -/
def calculate_ctwp_score (expand : String → List String) (student ck : KW) :
    ℚ × List String :=
  let r := wpLoop ck expand (top5 student) (ctTerms student ck)
  ((1/2 * ct_score student ck + 1/2 * r.1) * 5, r.2.dedup)

/-! ### Spec-side WP formulas (for claim C1)

`wpSpecClaim` renders the WP component exactly as claim C1 words it, for
comparison with the code; `wpFormula` is the corrected closed formula. -/

/-- WP formula as claim C1 states it: the top 5 profile terms are selected
by weight among the non-stopword terms (stopwords excluded before the
top-5 cut), and an expanded term contributes when it is a course keyword,
not a stopword and not a CT match. This definition follows the words of
the spec, not the code. -/
def wpSpecClaim (expand : String → List String) (student ck : KW) : ℚ :=
  (((sortByWeightDesc (student.filter (fun sw => decide (sw.1 ∉ STOPWORDS)))).take 5).map
    (fun sw =>
      ((expand sw.1).map (fun e =>
        if e ∈ keysOf ck ∧ e ∉ STOPWORDS ∧ e ∉ ctTerms student ck then
          sw.2 * (4/5) * alookupD ck e 1
        else 0)).sum)).sum

/-- Corrected closed formula for the WP component of the code: the top 5
items are cut from the full sorted profile (a stopword can occupy a slot)
and stopword terms among them are then skipped. -/
def wpFormula (expand : String → List String) (student ck : KW) : ℚ :=
  ((top5 student).map (fun sw =>
    if sw.1 ∈ STOPWORDS then 0
    else ((expand sw.1).map (fun e =>
      if e ∈ keysOf ck ∧ e ∉ STOPWORDS ∧ e ∉ ctTerms student ck then
        sw.2 * (4/5) * alookupD ck e 1
      else 0)).sum)).sum

/-! ### Concept graph and profile builder -/

/-- The loaded ontology: nodes as (id, label) pairs in load order, edges as
(sourceID, targetID) pairs. Relation tags, node types and descriptions are
never read by the profile builder and are omitted. -/
structure Graph where
  nodes : List (String × String)
  edges : List (String × String)

/-- Label of a node id, read as the code reads the label attribute with an
empty-string default: empty when the node has no label attribute (for
instance an edge endpoint missing from the node table). -/
def nodeLabel (g : Graph) (id : String) : String := (alookup g.nodes id).getD ""

/-- `list(self.graph.successors(n))`: distinct out-neighbors in edge-insertion
order (networkx stores each neighbor once). -/
def succIds (g : Graph) (n : String) : List String :=
  ((g.edges.filter (fun e => decide (e.1 = n))).map Prod.snd).dedup

/-- `list(self.graph.predecessors(n))`: distinct in-neighbors. -/
def predIds (g : Graph) (n : String) : List String :=
  ((g.edges.filter (fun e => decide (e.2 = n))).map Prod.fst).dedup

/-- `successors(root) + predecessors(root)` (line 104). -/
def neighborIds (g : Graph) (root : String) : List String :=
  succIds g root ++ predIds g root

/-- `s.replace(" ", "")` viewed as its character list. -/
def noSpace (s : String) : List Char := s.data.filter (fun c => decide (c ≠ ' '))

/-- Bool test that `needle` is an initial segment of `hay`. -/
def listStarts : List Char → List Char → Bool
  | [], _ => true
  | _ :: _, [] => false
  | a :: as, b :: bs => a = b && listStarts as bs

/-- Bool test that `needle` occurs contiguously inside `hay`: the Python
substring test `needle in hay`. -/
def listHasSub (needle : List Char) : List Char → Bool
  | [] => listStarts needle []
  | c :: t => listStarts needle (c :: t) || listHasSub needle t

/-- Lines 98-101: ids of nodes whose label contains the seed item as a
substring after removing spaces. -/
def targetNodes (g : Graph) (item : String) : List String :=
  (g.nodes.filter (fun nd => listHasSub (noSpace item) (noSpace nd.2))).map Prod.fst

/-- Lines 105-108: one neighbor visit. A non-empty, non-stopword neighbor
label gets `keywords[label] = keywords.get(label, 0) + 0.5`. -/
def bumpNb (g : Graph) (d : KW) (nbr : String) : KW :=
  let lbl := nodeLabel g nbr
  if lbl ≠ "" ∧ lbl ∉ STOPWORDS then aset d lbl (alookupD d lbl 0 + 1/2) else d

/-- Lines 103-108: visit the neighbors of every matched root node. -/
def expandFold (g : Graph) (roots : List String) (d : KW) : KW :=
  roots.foldl (fun d root => (neighborIds g root).foldl (bumpNb g) d) d

/-- Lines 94-108: one iteration of the seed-item loop: seed the item at
weight 1.0, then accumulate its 1-hop neighborhood. -/
def processItem (g : Graph) (d : KW) (item : String) : KW :=
  expandFold g (targetNodes g item) (aset d item 1)

/-- Lines 80-84: `input_items`. The double major joins only when truthy and
different from the "none" sentinel `"없음"`. -/
def inputItems (major dm : String) (history : List String) : List String :=
  [major] ++ (if dm ≠ "" ∧ dm ≠ "없음" then [dm] else []) ++ history

/-- Lines 86-87: the interest seeds the profile only when truthy. -/
def interestSeed : Option String → List String
  | some i => if i ≠ "" then [i] else []
  | none => []

/-- `get_keywords_from_input` (lines 78-109). `none` for the graph models
`self.graph is None` (failed ontology load). -/
def get_keywords_from_input (g? : Option Graph) (major dm : String)
    (history : List String) (interest : Option String) : KW :=
  let d0 : KW := (interestSeed interest).map (fun i => (i, 1))
  match g? with
  | none => (inputItems major dm history).foldl (fun d it => aset d it 1) d0
  | some g => (inputItems major dm history).foldl (processItem g) d0

/-- Seed key set as claim C6 words it: major, doubleMajor unless it equals
the none sentinel, the history courses, plus the interest if given. This
definition follows the words of the spec, not the code. -/
def seedKeysSpec (major dm : String) (history : List String)
    (interest : Option String) : List String :=
  [major] ++ (if dm ≠ "없음" then [dm] else []) ++ history ++
    (match interest with | some i => [i] | none => [])

/-! ### Ranking pipeline (`run_analysis`) -/

/-- One course record of the corpus, with the fields `run_analysis` reads. -/
structure Course where
  course_name : String
  professor : String
  university : String
  description : String
  keywords : KW
deriving DecidableEq

/-- `student_info_text` (lines 212-215). -/
structure StudentInfo where
  profile_keywords : String
  interest : String
deriving DecidableEq

/-- One row of the recommendation DataFrame (lines 235-244); `percent` is
the `적합도(%)` column added during normalization, 0 before it. -/
structure Rec where
  name : String
  professor : String
  university : String
  total : ℚ
  ctwp : ℚ
  ai : ℚ
  reason : String
  matched : String
  percent : ℤ
deriving DecidableEq

/-- `", ".join(l)`. -/
def joinComma : List String → String
  | [] => ""
  | [x] => x
  | x :: y :: t => x ++ ", " ++ joinComma (y :: t)

/-- Lines 212-215: the student summary handed to the Gemini evaluator. -/
def studentInfoOf (profile : KW) (interest : Option String) : StudentInfo :=
  ⟨joinComma ((keysOf profile).take 10),
   match interest with
   | some i => if i ≠ "" then i else "없음"
   | none => "없음"⟩

/-- Lines 219-244: score one course. `evalAI` abstracts
`evaluate_relevance_with_gemini` for the fixed student summary: it yields
the (aiScore, reason) pair the collaborator produces for the course. -/
def scoreRec (expand : String → List String) (evalAI : Course → ℚ × String)
    (profile : KW) (c : Course) : Rec :=
  let r := calculate_ctwp_score expand profile c.keywords
  let e := evalAI c
  { name := c.course_name, professor := c.professor, university := c.university,
    total := r.1 + e.1, ctwp := r.1, ai := e.1, reason := e.2,
    matched := if r.2.isEmpty then "없음" else joinComma (r.2.take 5),
    percent := 0 }

/-- The per-course scoring loop (lines 217-244). -/
def scoredRecs (expand : String → List String) (evalAI : Course → ℚ × String)
    (profile : KW) (courses : List Course) : List Rec :=
  courses.map (scoreRec expand evalAI profile)

/-- Maximum of a list of rationals; `df["최종 점수"].max()` on a non-empty
frame. -/
def maxQ : List ℚ → ℚ
  | [] => 0
  | [x] => x
  | x :: y :: t => max x (maxQ (y :: t))

/-- `astype(int)` on a float column: truncation toward zero. -/
def ratTrunc (q : ℚ) : ℤ := if 0 ≤ q then ⌊q⌋ else -⌊-q⌋

/-- Lines 249-254: the percentage normalization. When the maximum total is
positive every row gets `int(total / max * 95)`, otherwise every row gets
0. -/
def normalizeRecs (recs : List Rec) : List Rec :=
  let m := maxQ (recs.map Rec.total)
  recs.map (fun r =>
    { r with percent := if 0 < m then ratTrunc (r.total / m * 95) else 0 })

/-- Insertion step of the descending sort by `최종 점수`. -/
def insRec (x : Rec) : List Rec → List Rec
  | [] => [x]
  | y :: ys => if y.total ≤ x.total then x :: y :: ys else y :: insRec x ys

/-- `df.sort_values(by="최종 점수", ascending=False)` (line 256); the order
of tied rows is unspecified in the source and immaterial to every claim. -/
def sortRecDesc : List Rec → List Rec
  | [] => []
  | x :: xs => insRec x (sortRecDesc xs)

/-- `run_analysis` (lines 206-258): build the profile, score every course,
normalize, sort descending and keep the first five rows. The collaborator
appears as the pair of oracles `expand` and `evalAI`. -/
def run_analysis (g? : Option Graph) (expand : String → List String)
    (evalAI : StudentInfo → Course → ℚ × String) (courses : List Course)
    (major dm : String) (history : List String) (interest : Option String) :
    List Rec × KW :=
  let profile := get_keywords_from_input g? major dm history interest
  let recs := scoredRecs expand (evalAI (studentInfoOf profile interest)) profile courses
  (if recs.isEmpty then recs else (sortRecDesc (normalizeRecs recs)).take 5, profile)

/-! ### Expansion cache (`expand_keyword_with_gemini`) -/

/-- Outcome of one `generate_content` call inside the try block: either an
exception, or a response whose `.text` is the given string (the empty
string models a falsy `response.text`). -/
inductive ApiResult where
  | raises : ApiResult
  | returns : String → ApiResult
deriving DecidableEq

/-- Mutable state of the recommender relevant to keyword expansion:
`self.keyword_cache` plus a count of collaborator invocations. -/
structure ExpandState where
  cache : List (String × List String)
  calls : Nat
deriving DecidableEq

/-- `[word.strip() for word in text.split(',')]` (line 133). -/
def splitStrip (t : String) : List String := (t.splitOn ",").map (fun w => w.trim)

/-- `expand_keyword_with_gemini` (lines 114-137) with the collaborator as
the oracle `gen`; `calls` counts its invocations. A successful non-empty
response is cached; an exception or an empty response is not. -/
def expand_keyword_with_gemini (hasClient : Bool) (gen : String → ApiResult)
    (st : ExpandState) (keyword : String) : List String × ExpandState :=
  if hasClient = false then ([], st)
  else
    match alookup st.cache keyword with
    | some ws => (ws, st)
    | none =>
      if keyword ∈ STOPWORDS then ([], st)
      else
        match gen keyword with
        | .raises => ([], ⟨st.cache, st.calls + 1⟩)
        | .returns text =>
          if text = "" then ([], ⟨st.cache, st.calls + 1⟩)
          else
            let ws := splitStrip text
            (ws, ⟨aset st.cache keyword ws, st.calls + 1⟩)

/-! ### Gemini relevance evaluation (`evaluate_relevance_with_gemini`) -/

/-- A Python value sitting in a parsed JSON object field: null, a number,
or a string. The dict lookup `result.get(key, default)` returns such a
value verbatim when the key is present — it substitutes the default only
for a missing key, never for a present null or non-numeric value. -/
inductive PyVal where
  | null : PyVal
  | num : ℚ → PyVal
  | str : String → PyVal
deriving DecidableEq

/-- Outcome of the try block of `evaluate_relevance_with_gemini`: either
some exception (API failure, unparsable JSON, non-object JSON on which
`.get` raises), or a parsed JSON object whose `score` and `reason` fields
are each missing or carry an arbitrary value, malformed ones included. -/
inductive EvalOutcome where
  | raises : EvalOutcome
  | returns : Option PyVal → Option PyVal → EvalOutcome
deriving DecidableEq

/-- `evaluate_relevance_with_gemini` (lines 139-174): a total function of
the client presence and the call outcome — it never raises. On the success
path it returns `result.get("score", 0)` and `result.get("reason",
"분석 불가")` verbatim: only a missing field is replaced by its default. -/
def evaluate_relevance_with_gemini (hasClient : Bool) (outcome : EvalOutcome) :
    PyVal × PyVal :=
  if hasClient = false then (PyVal.num 0, PyVal.str "API 오류")
  else
    match outcome with
    | .raises => (PyVal.num 0, PyVal.str "AI 분석 실패")
    | .returns s r => (s.getD (PyVal.num 0), r.getD (PyVal.str "분석 불가"))

/-! ### Concrete inputs used by counterexamples and witnesses -/

/-- Profile whose top five terms by weight include the stopword `"및"`,
pushing the lightest real term `"bb"` out of the cut. -/
def exProfile : KW := [("및", 2), ("a1", 1), ("a2", 1), ("a3", 1), ("a4", 1), ("bb", 1)]

/-- Course keywords containing only the expansion `"xx"` of `"bb"`. -/
def exCourse : KW := [("xx", 1)]

/-- Stub collaborator: expands `"bb"` to `["xx"]` and everything else to
nothing. -/
def exExpand : String → List String := fun s => if s = "bb" then ["xx"] else []

/-- Course with a negative keyword weight (weights are trusted as-is by the
source, no validation). -/
def cexCourseA : Course := ⟨"A", "pA", "uA", "", [("abc", -1/2)]⟩

/-- Companion course with a positive weight for the same keyword. -/
def cexCourseB : Course := ⟨"B", "pB", "uB", "", [("abc", 1)]⟩

/-- Evaluator stub that always returns score 0. -/
def cexAI : StudentInfo → Course → ℚ × String := fun _ _ => (0, "r")

/-- Single well-behaved course used by the C2 witness. -/
def wCourse : Course := ⟨"c1", "p1", "u1", "d1", [("abc", 1)]⟩

/-- The row `run_analysis` produces for `wCourse` after normalization. -/
def wRec : Rec := ⟨"c1", "p1", "u1", 15/4, 15/4, 0, "r", "abc", 95⟩

/-- Invariant of the profile dict: every stopword key carries weight
exactly 1.0 (stopword keys are only ever written by the two seed writes,
never by the +0.5 neighbor accumulation). -/
def StopInv (d : KW) : Prop :=
  ∀ k v, k ∈ STOPWORDS → alookup d k = some v → v = 1

/-! ## Theorems -/

/-- C5: on profile `{"marketing": 1.0}` and course keywords
`{"marketing": 1.0}` with no expansion matches, the CT component is
`1.0*1.0*1.5 = 1.5`, the WP component is 0 and the returned score is
`(0.5*1.5 + 0.5*0)*5.0 = 3.75`. -/
theorem marketing_example :
    ct_score [("marketing", 1)] [("marketing", 1)] = 3/2 ∧
    wpScore (fun _ => []) [("marketing", 1)] [("marketing", 1)] = 0 ∧
    (calculate_ctwp_score (fun _ => []) [("marketing", 1)] [("marketing", 1)]).1 = 15/4 := by
  refine ⟨by simp +decide [ct_score, ctTerms, keysOf, alookupD, alookup, get_idf_weight],
    by simp +decide [wpScore, wpLoop, wpInner, top5, sortByWeightDesc, insertByWeight], ?_⟩
  simp +decide [ct_score, ctTerms, keysOf, alookupD, alookup, get_idf_weight,
    calculate_ctwp_score, wpLoop, wpInner, top5, sortByWeightDesc, insertByWeight]
  norm_num

/-! ### Association-list lemmas -/

theorem keysOf_nil {α : Type} : keysOf ([] : List (String × α)) = [] := rfl

theorem keysOf_cons {α : Type} (k : String) (v : α) (tl : List (String × α)) :
    keysOf ((k, v) :: tl) = k :: keysOf tl := rfl

theorem mem_keys_iff_alookup {α : Type} (d : List (String × α)) (x : String) :
    x ∈ keysOf d ↔ ∃ v, alookup d x = some v := by
  induction d with
  | nil => simp [alookup, keysOf_nil]
  | cons hd tl ih =>
    obtain ⟨k', v'⟩ := hd
    rw [keysOf_cons]
    by_cases h : k' = x
    · subst h
      simp [alookup]
    · simp only [List.mem_cons, alookup, if_neg h, ih]
      constructor
      · rintro (rfl | h2)
        · exact absurd rfl h
        · exact h2
      · exact Or.inr

theorem alookup_eq_none {α : Type} (d : List (String × α)) (k : String) :
    alookup d k = none ↔ k ∉ keysOf d := by
  constructor
  · intro h hmem
    obtain ⟨v, hv⟩ := (mem_keys_iff_alookup d k).mp hmem
    rw [h] at hv
    cases hv
  · intro h
    cases hv : alookup d k with
    | none => rfl
    | some v => exact absurd ((mem_keys_iff_alookup d k).mpr ⟨v, hv⟩) h

theorem alookup_some_iff {α : Type} (d : List (String × α)) (k : String) (v : α)
    (hnd : (keysOf d).Nodup) : alookup d k = some v ↔ (k, v) ∈ d := by
  induction d with
  | nil => simp [alookup]
  | cons hd tl ih =>
    obtain ⟨k', v'⟩ := hd
    rw [keysOf_cons, List.nodup_cons] at hnd
    rw [List.mem_cons]
    by_cases h : k' = k
    · subst h
      rw [show alookup ((k', v') :: tl) k' = some v' by simp [alookup]]
      constructor
      · intro hv
        injection hv with hv
        exact Or.inl (by rw [hv])
      · rintro (he | hm)
        · injection he with h1 h2
          rw [h2]
        · exact absurd (List.mem_map_of_mem Prod.fst hm) hnd.1
    · rw [show alookup ((k', v') :: tl) k = alookup tl k by simp [alookup, h]]
      rw [ih hnd.2]
      constructor
      · exact Or.inr
      · rintro (he | hm)
        · exact absurd (congrArg Prod.fst he).symm h
        · exact hm

theorem alookup_perm {α : Type} {d d' : List (String × α)} (hp : d.Perm d')
    (hnd : (keysOf d).Nodup) (k : String) : alookup d k = alookup d' k := by
  have hmk : (keysOf d).Perm (keysOf d') := hp.map Prod.fst
  have hnd' : (keysOf d').Nodup := hmk.nodup_iff.mp hnd
  cases h : alookup d k with
  | none =>
    rw [alookup_eq_none] at h
    exact ((alookup_eq_none d' k).mpr (fun hm => h (hmk.mem_iff.mpr hm))).symm
  | some v =>
    exact ((alookup_some_iff d' k v hnd').mpr
      (hp.mem_iff.mp ((alookup_some_iff d k v hnd).mp h))).symm

theorem alookup_aset_self {α : Type} (d : List (String × α)) (k : String) (v : α) :
    alookup (aset d k v) k = some v := by
  induction d with
  | nil => simp [aset, alookup]
  | cons hd tl ih =>
    obtain ⟨k', v'⟩ := hd
    by_cases h : k' = k
    · simp [aset, alookup, h]
    · simp [aset, alookup, h, ih]

theorem alookup_aset_ne {α : Type} (d : List (String × α)) (k x : String) (v : α)
    (h : x ≠ k) : alookup (aset d k v) x = alookup d x := by
  have hne : ¬ (k = x) := fun he => h he.symm
  induction d with
  | nil => simp [aset, alookup, hne]
  | cons hd tl ih =>
    obtain ⟨k', v'⟩ := hd
    by_cases h' : k' = k
    · simp [aset, alookup, h', hne]
    · by_cases h'' : k' = x
      · simp [aset, alookup, h', h'', h]
      · simp [aset, alookup, h', h'', ih]

theorem mem_keys_aset {α : Type} (d : List (String × α)) (k x : String) (v : α) :
    x ∈ keysOf (aset d k v) ↔ x ∈ keysOf d ∨ x = k := by
  induction d with
  | nil => simp [aset, keysOf_cons, keysOf_nil]
  | cons hd tl ih =>
    obtain ⟨k', v'⟩ := hd
    by_cases h : k' = k
    · simp [aset, keysOf_cons, h]
      tauto
    · simp [aset, keysOf_cons, h, ih]
      tauto

theorem mem_aset_elim {α : Type} (d : List (String × α)) (k : String) (v : α)
    (kv : String × α) (h : kv ∈ aset d k v) : kv ∈ d ∨ kv = (k, v) := by
  induction d with
  | nil =>
    simp [aset] at h
    exact Or.inr h
  | cons hd tl ih =>
    obtain ⟨k', v'⟩ := hd
    by_cases h' : k' = k
    · simp only [aset, if_pos h', List.mem_cons] at h
      rcases h with h | h
      · exact Or.inr (by rw [h, h'])
      · exact Or.inl (List.mem_cons_of_mem _ h)
    · simp only [aset, if_neg h', List.mem_cons] at h
      rcases h with h | h
      · exact Or.inl (by rw [h]; exact List.mem_cons_self _ _)
      · rcases ih h with h2 | h2
        · exact Or.inl (List.mem_cons_of_mem _ h2)
        · exact Or.inr h2

/-! ### C8: ctScore is order-independent in both inputs -/

/-- C8 (confirmed): for well-formed keyword mappings (no duplicate keys),
reordering the entries of the profile mapping or of the course keyword
mapping does not change the CT component, which depends only on the set
intersection of the key sets minus the stopwords. -/
theorem ct_score_perm_invariant (p p' c c' : KW)
    (hnp : (keysOf p).Nodup) (hnc : (keysOf c).Nodup)
    (hp : p.Perm p') (hc : c.Perm c') :
    ct_score p c = ct_score p' c' := by
  have hlp : ∀ k, alookup p k = alookup p' k := alookup_perm hp hnp
  have hlc : ∀ k, alookup c k = alookup c' k := alookup_perm hc hnc
  have hkeys : ∀ k, k ∈ keysOf c ↔ k ∈ keysOf c' := fun k => (hc.map Prod.fst).mem_iff
  have hterms : (ctTerms p c).Perm (ctTerms p' c') := by
    unfold ctTerms
    apply List.Perm.dedup
    have h1 : (keysOf p').filter (fun k => decide (k ∈ keysOf c' ∧ k ∉ STOPWORDS))
        = (keysOf p').filter (fun k => decide (k ∈ keysOf c ∧ k ∉ STOPWORDS)) := by
      apply List.filter_congr
      intro a _
      rw [decide_eq_decide]
      exact and_congr_left' (hkeys a).symm
    rw [h1]
    exact (hp.map Prod.fst).filter _
  unfold ct_score
  have hfun : (fun t => alookupD p t 1 * alookupD c t 1 * get_idf_weight t)
      = (fun t => alookupD p' t 1 * alookupD c' t 1 * get_idf_weight t) := by
    funext t
    rw [alookupD, alookupD, alookupD, alookupD, hlp t, hlc t]
  rw [hfun]
  exact (hterms.map _).sum_eq

/-- C8 witness: a concrete reordering of both mappings. -/
theorem ct_score_perm_invariant_witness :
    ct_score [("a", 1), ("bb", 2)] [("a", 3), ("cc", 1)]
      = ct_score [("bb", 2), ("a", 1)] [("cc", 1), ("a", 3)] :=
  ct_score_perm_invariant _ _ _ _ (by decide) (by decide) (by decide) (by decide)

/-! ### C1: the WP component -/

theorem arrow_mem_mark (e s : String) : '←' ∈ (e ++ "(←" ++ s ++ ")").data := by
  rw [String.data_append, String.data_append, String.data_append]
  refine List.mem_append_left _ (List.mem_append_left _ (List.mem_append_right _ ?_))
  decide

theorem wpInner_eval (ck : KW) (s : String) (w : ℚ) (ct : List String) :
    ∀ (es m : List String),
      (∀ x, ('←' ∈ x.data → False) → (x ∈ m ↔ x ∈ ct)) →
      (∀ e ∈ es, '←' ∈ e.data → False) →
      (wpInner ck s w es m).1 =
        ((es.map (fun e =>
          if e ∈ keysOf ck ∧ e ∉ STOPWORDS ∧ e ∉ ct then w * (4/5) * alookupD ck e 1
          else 0)).sum) ∧
      (∀ x, ('←' ∈ x.data → False) → (x ∈ (wpInner ck s w es m).2 ↔ x ∈ ct)) := by
  intro es
  induction es with
  | nil =>
    intro m hm _
    exact ⟨by simp [wpInner], hm⟩
  | cons e es ih =>
    intro m hm he
    have hearrow : '←' ∈ e.data → False := he e (List.mem_cons_self _ _)
    have hrest : ∀ e' ∈ es, '←' ∈ e'.data → False :=
      fun e' h' => he e' (List.mem_cons_of_mem _ h')
    by_cases hk : e ∈ keysOf ck
    · by_cases hskip : e ∈ STOPWORDS ∨ e ∈ m
      · have hct : ¬ (e ∈ keysOf ck ∧ e ∉ STOPWORDS ∧ e ∉ ct) := by
          rintro ⟨-, hstop, hctm⟩
          rcases hskip with hs | hs
          · exact hstop hs
          · exact hctm ((hm e hearrow).mp hs)
        have := ih m hm hrest
        rw [wpInner, if_pos hk, if_pos hskip]
        refine ⟨?_, this.2⟩
        rw [this.1, List.map_cons, List.sum_cons, if_neg hct]
        rw [zero_add]
      · have hstop : e ∉ STOPWORDS := fun hs => hskip (Or.inl hs)
        have hmm : e ∉ m := fun hs => hskip (Or.inr hs)
        have hct : e ∈ keysOf ck ∧ e ∉ STOPWORDS ∧ e ∉ ct :=
          ⟨hk, hstop, fun hs => hmm ((hm e hearrow).mpr hs)⟩
        have hm' : ∀ x, ('←' ∈ x.data → False) →
            (x ∈ m ++ [e ++ "(←" ++ s ++ ")"] ↔ x ∈ ct) := by
          intro x hx
          rw [List.mem_append]
          constructor
          · rintro (h2 | h2)
            · exact (hm x hx).mp h2
            · rcases List.mem_singleton.mp h2 with rfl
              exact absurd (arrow_mem_mark e s) (fun hc => hx hc)
          · intro h2
            exact Or.inl ((hm x hx).mpr h2)
        have := ih (m ++ [e ++ "(←" ++ s ++ ")"]) hm' hrest
        rw [wpInner, if_pos hk, if_neg hskip]
        refine ⟨?_, this.2⟩
        show w * (4/5) * alookupD ck e 1
            + (wpInner ck s w es (m ++ [e ++ "(←" ++ s ++ ")"])).1 = _
        rw [this.1, List.map_cons, List.sum_cons, if_pos hct]
    · have hct : ¬ (e ∈ keysOf ck ∧ e ∉ STOPWORDS ∧ e ∉ ct) := fun hc => hk hc.1
      have := ih m hm hrest
      rw [wpInner, if_neg hk]
      refine ⟨?_, this.2⟩
      rw [this.1, List.map_cons, List.sum_cons, if_neg hct, zero_add]

theorem wpLoop_eval (ck : KW) (expand : String → List String) (ct : List String) :
    ∀ (ts : List (String × ℚ)) (m : List String),
      (∀ x, ('←' ∈ x.data → False) → (x ∈ m ↔ x ∈ ct)) →
      (∀ sw ∈ ts, ∀ e ∈ expand sw.1, '←' ∈ e.data → False) →
      (wpLoop ck expand ts m).1 =
        (ts.map (fun sw =>
          if sw.1 ∈ STOPWORDS then 0
          else ((expand sw.1).map (fun e =>
            if e ∈ keysOf ck ∧ e ∉ STOPWORDS ∧ e ∉ ct then sw.2 * (4/5) * alookupD ck e 1
            else 0)).sum)).sum := by
  intro ts
  induction ts with
  | nil =>
    intro m _ _
    simp [wpLoop]
  | cons sw rest ih =>
    intro m hm hts
    have hhd : ∀ e ∈ expand sw.1, '←' ∈ e.data → False :=
      hts sw (List.mem_cons_self _ _)
    have htl : ∀ sw' ∈ rest, ∀ e ∈ expand sw'.1, '←' ∈ e.data → False :=
      fun sw' h' => hts sw' (List.mem_cons_of_mem _ h')
    by_cases hstop : sw.1 ∈ STOPWORDS
    · rw [wpLoop, if_pos hstop, List.map_cons, List.sum_cons, if_pos hstop, zero_add]
      exact ih m hm htl
    · have hinner := wpInner_eval ck sw.1 sw.2 ct (expand sw.1) m hm hhd
      rw [wpLoop, if_neg hstop, List.map_cons, List.sum_cons, if_neg hstop]
      show (wpInner ck sw.1 sw.2 (expand sw.1) m).1
          + (wpLoop ck expand rest (wpInner ck sw.1 sw.2 (expand sw.1) m).2).1 = _
      rw [hinner.1, ih _ hinner.2 htl]

/-- C1 counterexample: with the stopword `"및"` occupying a top-5 slot, the
code expands only the four remaining slot holders and scores a WP of 0,
while the formula of the claim (top 5 selected among non-stopword terms)
also expands `"bb"` and scores 4/5. -/
theorem wp_top5_counterexample :
    wpScore exExpand exProfile exCourse = 0 ∧
    wpSpecClaim exExpand exProfile exCourse = 4/5 := by
  constructor
  · simp +decide [wpScore, wpLoop, wpInner, top5, sortByWeightDesc, insertByWeight,
      exExpand, exProfile, exCourse, ctTerms, keysOf, alookupD, alookup]
  · simp +decide [wpSpecClaim, sortByWeightDesc, insertByWeight,
      exExpand, exProfile, exCourse, ctTerms, keysOf, alookupD, alookup]

/-- C1 (corrected): the WP component equals the claimed double sum — each
top-5 profile term `s` contributes `profile[s] * 0.8 * courseKeywords[e]`
for every expanded term `e` that is a course keyword, not a stopword and
not a CT match — except that the top-5 slots are cut from the full profile
before stopword filtering (a stopword can use up a slot; only the
remaining slot holders are expanded). The hypothesis excludes expanded
terms containing the marker character the code embeds in its running match
list; such a term could collide with a recorded earlier match and be
dropped. -/
theorem wp_score_eq_formula (expand : String → List String) (student ck : KW)
    (h : ∀ sw ∈ top5 student, ∀ e ∈ expand sw.1, '←' ∈ e.data → False) :
    wpScore expand student ck = wpFormula expand student ck :=
  wpLoop_eval ck expand (ctTerms student ck) (top5 student) (ctTerms student ck)
    (fun _ _ => Iff.rfl) h

/-- C1 witness: the corrected formula evaluated on the counterexample
inputs (both sides are 0 there: `"bb"` is outside the top-5 cut). -/
theorem wp_score_eq_formula_witness :
    wpScore exExpand exProfile exCourse = wpFormula exExpand exProfile exCourse :=
  wp_score_eq_formula exExpand exProfile exCourse (by decide)

/-! ### Profile-builder lemmas -/

theorem alookup_mem {α : Type} (d : List (String × α)) (k : String) (v : α)
    (h : alookup d k = some v) : (k, v) ∈ d := by
  induction d with
  | nil => cases h
  | cons hd tl ih =>
    obtain ⟨k', v'⟩ := hd
    by_cases h' : k' = k
    · subst h'
      rw [show alookup ((k', v') :: tl) k' = some v' by simp [alookup]] at h
      injection h with h
      rw [← h]
      exact List.mem_cons_self _ _
    · rw [show alookup ((k', v') :: tl) k = alookup tl k by simp [alookup, h']] at h
      exact List.mem_cons_of_mem _ (ih h)

theorem keys_fold_aset (items : List String) :
    ∀ (d : KW) (x : String),
      x ∈ keysOf (items.foldl (fun d it => aset d it 1) d) ↔ x ∈ keysOf d ∨ x ∈ items := by
  induction items with
  | nil => intro d x; simp
  | cons it its ih =>
    intro d x
    rw [List.foldl_cons, ih, mem_keys_aset, List.mem_cons]
    tauto

theorem val_fold_aset (items : List String) :
    ∀ d : KW, (∀ kv ∈ d, kv.2 = (1:ℚ)) →
      ∀ kv ∈ items.foldl (fun d it => aset d it 1) d, kv.2 = (1:ℚ) := by
  induction items with
  | nil => intro d h; exact h
  | cons it its ih =>
    intro d h
    rw [List.foldl_cons]
    refine ih _ (fun kv hkv => ?_)
    rcases mem_aset_elim d it 1 kv hkv with h2 | h2
    · exact h kv h2
    · rw [h2]

theorem keys_bumpNb_mono (g : Graph) (d : KW) (nbr x : String)
    (h : x ∈ keysOf d) : x ∈ keysOf (bumpNb g d nbr) := by
  by_cases hc : nodeLabel g nbr ≠ "" ∧ nodeLabel g nbr ∉ STOPWORDS
  · simp only [bumpNb, if_pos hc]
    exact (mem_keys_aset _ _ _ _).mpr (Or.inl h)
  · simpa only [bumpNb, if_neg hc] using h

theorem keys_bumpNb_sub (g : Graph) (d : KW) (nbr x : String)
    (h : x ∈ keysOf (bumpNb g d nbr)) : x ∈ keysOf d ∨ (x ≠ "" ∧ x ∉ STOPWORDS) := by
  by_cases hc : nodeLabel g nbr ≠ "" ∧ nodeLabel g nbr ∉ STOPWORDS
  · rw [bumpNb] at h
    simp only [if_pos hc] at h
    rcases (mem_keys_aset _ _ _ _).mp h with h2 | h2
    · exact Or.inl h2
    · exact Or.inr (h2 ▸ hc)
  · rw [bumpNb] at h
    simp only [if_neg hc] at h
    exact Or.inl h

theorem stop_bumpNb (g : Graph) (d : KW) (nbr : String)
    (hinv : StopInv d) : StopInv (bumpNb g d nbr) := by
  by_cases hc : nodeLabel g nbr ≠ "" ∧ nodeLabel g nbr ∉ STOPWORDS
  · intro k v hk hv
    rw [bumpNb] at hv
    simp only [if_pos hc] at hv
    have hne : k ≠ nodeLabel g nbr := fun he => hc.2 (he ▸ hk)
    rw [alookup_aset_ne _ _ _ _ hne] at hv
    exact hinv k v hk hv
  · intro k v hk hv
    rw [bumpNb] at hv
    simp only [if_neg hc] at hv
    exact hinv k v hk hv

theorem keys_nbfold_mono (g : Graph) (nbs : List String) :
    ∀ (d : KW) (x : String), x ∈ keysOf d → x ∈ keysOf (nbs.foldl (bumpNb g) d) := by
  induction nbs with
  | nil => intro d x h; exact h
  | cons nb nbs ih =>
    intro d x h
    rw [List.foldl_cons]
    exact ih _ _ (keys_bumpNb_mono g d nb x h)

theorem keys_nbfold_sub (g : Graph) (nbs : List String) :
    ∀ (d : KW) (x : String), x ∈ keysOf (nbs.foldl (bumpNb g) d) →
      x ∈ keysOf d ∨ (x ≠ "" ∧ x ∉ STOPWORDS) := by
  induction nbs with
  | nil => intro d x h; exact Or.inl h
  | cons nb nbs ih =>
    intro d x h
    rw [List.foldl_cons] at h
    rcases ih _ _ h with h2 | h2
    · exact keys_bumpNb_sub g d nb x h2
    · exact Or.inr h2

theorem stop_nbfold (g : Graph) (nbs : List String) :
    ∀ d : KW, StopInv d → StopInv (nbs.foldl (bumpNb g) d) := by
  induction nbs with
  | nil => intro d h; exact h
  | cons nb nbs ih =>
    intro d h
    rw [List.foldl_cons]
    exact ih _ (stop_bumpNb g d nb h)

theorem keys_expandFold_mono (g : Graph) (roots : List String) :
    ∀ (d : KW) (x : String), x ∈ keysOf d → x ∈ keysOf (expandFold g roots d) := by
  induction roots with
  | nil => intro d x h; exact h
  | cons r rs ih =>
    intro d x h
    rw [expandFold, List.foldl_cons]
    exact ih _ _ (keys_nbfold_mono g _ d x h)

theorem keys_expandFold_sub (g : Graph) (roots : List String) :
    ∀ (d : KW) (x : String), x ∈ keysOf (expandFold g roots d) →
      x ∈ keysOf d ∨ (x ≠ "" ∧ x ∉ STOPWORDS) := by
  induction roots with
  | nil => intro d x h; exact Or.inl h
  | cons r rs ih =>
    intro d x h
    rw [expandFold, List.foldl_cons] at h
    rcases ih _ _ h with h2 | h2
    · exact keys_nbfold_sub g _ d x h2
    · exact Or.inr h2

theorem stop_expandFold (g : Graph) (roots : List String) :
    ∀ d : KW, StopInv d → StopInv (expandFold g roots d) := by
  induction roots with
  | nil => intro d h; exact h
  | cons r rs ih =>
    intro d h
    rw [expandFold, List.foldl_cons]
    exact ih _ (stop_nbfold g _ d h)

theorem keys_processItem_mono (g : Graph) (d : KW) (item x : String)
    (h : x ∈ keysOf d) : x ∈ keysOf (processItem g d item) :=
  keys_expandFold_mono g _ _ x ((mem_keys_aset d item x 1).mpr (Or.inl h))

theorem keys_processItem_self (g : Graph) (d : KW) (item : String) :
    item ∈ keysOf (processItem g d item) :=
  keys_expandFold_mono g _ _ item ((mem_keys_aset d item item 1).mpr (Or.inr rfl))

theorem keys_processItem_sub (g : Graph) (d : KW) (item x : String)
    (h : x ∈ keysOf (processItem g d item)) :
    x ∈ keysOf d ∨ x = item ∨ (x ≠ "" ∧ x ∉ STOPWORDS) := by
  rcases keys_expandFold_sub g _ _ x h with h2 | h2
  · rcases (mem_keys_aset d item x 1).mp h2 with h3 | h3
    · exact Or.inl h3
    · exact Or.inr (Or.inl h3)
  · exact Or.inr (Or.inr h2)

theorem stop_processItem (g : Graph) (d : KW) (item : String)
    (h : StopInv d) : StopInv (processItem g d item) := by
  refine stop_expandFold g _ _ (fun k v hk hv => ?_)
  by_cases he : k = item
  · subst he
    rw [alookup_aset_self] at hv
    injection hv with hv
    exact hv.symm
  · rw [alookup_aset_ne _ _ _ _ he] at hv
    exact h k v hk hv

theorem keys_itemsFold_mono (g : Graph) (items : List String) :
    ∀ (d : KW) (x : String), x ∈ keysOf d → x ∈ keysOf (items.foldl (processItem g) d) := by
  induction items with
  | nil => intro d x h; exact h
  | cons it its ih =>
    intro d x h
    rw [List.foldl_cons]
    exact ih _ _ (keys_processItem_mono g d it x h)

theorem keys_itemsFold_self (g : Graph) (items : List String) :
    ∀ (d : KW) (t : String), t ∈ items → t ∈ keysOf (items.foldl (processItem g) d) := by
  induction items with
  | nil => intro d t h; cases h
  | cons it its ih =>
    intro d t h
    rw [List.foldl_cons]
    rcases List.mem_cons.mp h with h2 | h2
    · exact keys_itemsFold_mono g its _ t (h2 ▸ keys_processItem_self g d it)
    · exact ih _ t h2

theorem keys_itemsFold_sub (g : Graph) (items : List String) :
    ∀ (d : KW) (x : String), x ∈ keysOf (items.foldl (processItem g) d) →
      x ∈ keysOf d ∨ x ∈ items ∨ (x ≠ "" ∧ x ∉ STOPWORDS) := by
  induction items with
  | nil => intro d x h; exact Or.inl h
  | cons it its ih =>
    intro d x h
    rw [List.foldl_cons] at h
    rcases ih _ _ h with h2 | h2 | h2
    · rcases keys_processItem_sub g d it x h2 with h3 | h3 | h3
      · exact Or.inl h3
      · exact Or.inr (Or.inl (h3 ▸ List.mem_cons_self _ _))
      · exact Or.inr (Or.inr h3)
    · exact Or.inr (Or.inl (List.mem_cons_of_mem _ h2))
    · exact Or.inr (Or.inr h2)

theorem stop_itemsFold (g : Graph) (items : List String) :
    ∀ d : KW, StopInv d → StopInv (items.foldl (processItem g) d) := by
  induction items with
  | nil => intro d h; exact h
  | cons it its ih =>
    intro d h
    rw [List.foldl_cons]
    exact ih _ (stop_processItem g d it h)

theorem keys_seed_dict (interest : Option String) :
    keysOf ((interestSeed interest).map (fun i => (i, (1:ℚ)))) = interestSeed interest := by
  rw [keysOf, List.map_map]
  exact List.map_id _

theorem stopinv_seed_dict (interest : Option String) :
    StopInv ((interestSeed interest).map (fun i => (i, (1:ℚ)))) := by
  intro k v _ hv
  have := alookup_mem _ _ _ hv
  rcases List.mem_map.mp this with ⟨i, -, he⟩
  injection he with h1 h2
  exact h2.symm

theorem major_mem_profile (g? : Option Graph) (major dm : String)
    (history : List String) (interest : Option String) :
    major ∈ keysOf (get_keywords_from_input g? major dm history interest) := by
  have hmem : major ∈ inputItems major dm history := by simp [inputItems]
  cases g? with
  | none =>
    rw [get_keywords_from_input]
    exact (keys_fold_aset _ _ _).mpr (Or.inr hmem)
  | some g =>
    rw [get_keywords_from_input]
    exact keys_itemsFold_self g _ _ major hmem

theorem gk_none_eq (major dm : String) (history : List String) (interest : Option String) :
    get_keywords_from_input none major dm history interest
      = (inputItems major dm history).foldl (fun d it => aset d it 1)
          ((interestSeed interest).map (fun i => (i, 1))) := rfl

theorem gk_some_eq (g : Graph) (major dm : String) (history : List String)
    (interest : Option String) :
    get_keywords_from_input (some g) major dm history interest
      = (inputItems major dm history).foldl (processItem g)
          ((interestSeed interest).map (fun i => (i, 1))) := rfl

/-! ### C6: profile in degraded (graph-absent) mode -/

/-- C6 counterexample: with `doubleMajor = ""` (a falsy value distinct from
the none sentinel `"없음"`) the built profile omits the double major, while
the seed set described by the claim contains it. -/
theorem profile_no_graph_counterexample :
    ((keysOf (get_keywords_from_input none "사학과" "" [] none)).contains "") = false ∧
    ((seedKeysSpec "사학과" "" [] none).contains "") = true := by
  constructor
  · simp +decide [gk_none_eq, inputItems, interestSeed, keysOf, aset]
  · simp +decide [seedKeysSpec]

/-- C6 (corrected): when the graph is absent, the key set of the built
profile is exactly the seed terms — major, doubleMajor unless it is empty
or the none sentinel `"없음"`, and the history courses — plus the interest
if given and non-empty; every key carries weight 1.0 and no expanded term
appears. -/
theorem profile_no_graph_amended (major dm : String) (history : List String)
    (interest : Option String) :
    (∀ x, x ∈ keysOf (get_keywords_from_input none major dm history interest) ↔
        x ∈ interestSeed interest ∨ x ∈ inputItems major dm history) ∧
    (∀ kv ∈ get_keywords_from_input none major dm history interest, kv.2 = (1:ℚ)) := by
  constructor
  · intro x
    rw [gk_none_eq, keys_fold_aset, keys_seed_dict]
  · rw [gk_none_eq]
    refine val_fold_aset _ _ (fun kv hkv => ?_)
    rcases List.mem_map.mp hkv with ⟨i, -, he⟩
    rw [← he]

/-- C6 witness: a supplied interest term is a key of the degraded profile. -/
theorem profile_no_graph_amended_witness :
    "마케팅" ∈ keysOf (get_keywords_from_input none "사학과" "" [] (some "마케팅")) :=
  ((profile_no_graph_amended "사학과" "" [] (some "마케팅")).1 "마케팅").mpr (by decide)

/-! ### C10: expansion keys are filtered, seed keys are not -/

/-- C10 (confirmed): with a loaded graph, every profile key that is neither
a seed item nor the interest entered through 1-hop expansion and is
therefore a non-empty non-stopword label; seed items and the interest
bypass that filter, and any of them that is itself a stopword still
appears with weight exactly 1.0 (the +0.5 accumulation never touches
stopword keys). -/
theorem profile_expansion_invariant (g : Graph) (major dm : String)
    (history : List String) (interest : Option String) :
    (∀ x ∈ keysOf (get_keywords_from_input (some g) major dm history interest),
        x ∉ inputItems major dm history → x ∉ interestSeed interest →
        (x ≠ "" ∧ x ∉ STOPWORDS)) ∧
    (∀ t ∈ inputItems major dm history, t ∈ STOPWORDS →
        alookup (get_keywords_from_input (some g) major dm history interest) t = some 1) ∧
    (∀ i ∈ interestSeed interest, i ∈ STOPWORDS →
        alookup (get_keywords_from_input (some g) major dm history interest) i = some 1) := by
  have hstop : StopInv (get_keywords_from_input (some g) major dm history interest) := by
    rw [gk_some_eq]
    exact stop_itemsFold g _ _ (stopinv_seed_dict interest)
  refine ⟨?_, ?_, ?_⟩
  · intro x hx hitems hseed
    rw [gk_some_eq] at hx
    rcases keys_itemsFold_sub g _ _ x hx with h2 | h2 | h2
    · rw [keys_seed_dict] at h2
      exact absurd h2 hseed
    · exact absurd h2 hitems
    · exact h2
  · intro t ht hstopw
    have hmem : t ∈ keysOf (get_keywords_from_input (some g) major dm history interest) := by
      rw [gk_some_eq]
      exact keys_itemsFold_self g _ _ t ht
    obtain ⟨v, hv⟩ := (mem_keys_iff_alookup _ t).mp hmem
    rw [hv, hstop t v hstopw hv]
  · intro i hi hstopw
    have hmem : i ∈ keysOf (get_keywords_from_input (some g) major dm history interest) := by
      rw [gk_some_eq]
      refine keys_itemsFold_mono g _ _ i ?_
      rw [keys_seed_dict]
      exact hi
    obtain ⟨v, hv⟩ := (mem_keys_iff_alookup _ i).mp hmem
    rw [hv, hstop i v hstopw hv]

/-- C10 witness: a stopword major keeps weight exactly 1.0 in a profile
built over a concrete two-node graph. -/
theorem profile_expansion_invariant_witness :
    alookup (get_keywords_from_input
      (some ⟨[("n1", "데이터"), ("n2", "통계")], [("n1", "n2")]⟩)
      "및" "없음" [] none) "및" = some 1 :=
  (profile_expansion_invariant ⟨[("n1", "데이터"), ("n2", "통계")], [("n1", "n2")]⟩
    "및" "없음" [] none).2.1 "및" (by decide) (by decide)

/-! ### C9: empty course corpus -/

/-- C9 (confirmed): on an empty course corpus `run_analysis` returns an
empty recommendation list together with the built profile, and the profile
is non-empty — the major is always seeded, so this holds for every input,
in particular whenever at least one seed term was supplied. -/
theorem empty_corpus_run (g? : Option Graph) (expand : String → List String)
    (evalAI : StudentInfo → Course → ℚ × String)
    (major dm : String) (history : List String) (interest : Option String) :
    (run_analysis g? expand evalAI [] major dm history interest).1 = [] ∧
    (run_analysis g? expand evalAI [] major dm history interest).2
      = get_keywords_from_input g? major dm history interest ∧
    0 < (run_analysis g? expand evalAI [] major dm history interest).2.length := by
  refine ⟨rfl, rfl, ?_⟩
  have hmem := major_mem_profile g? major dm history interest
  have hne : get_keywords_from_input g? major dm history interest ≠ [] := by
    intro he
    rw [he] at hmem
    simp [keysOf] at hmem
  show 0 < (get_keywords_from_input g? major dm history interest).length
  exact List.length_pos.mpr hne

/-! ### C3: output length and order -/

theorem mem_insRec (x z : Rec) (l : List Rec) :
    z ∈ insRec x l ↔ z = x ∨ z ∈ l := by
  induction l with
  | nil => simp [insRec]
  | cons y ys ih =>
    by_cases h : y.total ≤ x.total
    · simp [insRec, h]
    · simp [insRec, h, ih]
      tauto

theorem pairwise_insRec (x : Rec) (l : List Rec)
    (h : l.Pairwise (fun a b => b.total ≤ a.total)) :
    (insRec x l).Pairwise (fun a b => b.total ≤ a.total) := by
  induction l with
  | nil => simp [insRec]
  | cons y ys ih =>
    rcases List.pairwise_cons.mp h with ⟨hy, hys⟩
    by_cases hle : y.total ≤ x.total
    · rw [insRec, if_pos hle]
      refine List.pairwise_cons.mpr ⟨?_, h⟩
      intro z hz
      rcases List.mem_cons.mp hz with rfl | hz
      · exact hle
      · exact le_trans (hy z hz) hle
    · rw [insRec, if_neg hle]
      refine List.pairwise_cons.mpr ⟨?_, ih hys⟩
      intro z hz
      rcases (mem_insRec x z ys).mp hz with rfl | hz
      · exact le_of_lt (lt_of_not_le hle)
      · exact hy z hz

theorem pairwise_sortRecDesc (l : List Rec) :
    (sortRecDesc l).Pairwise (fun a b => b.total ≤ a.total) := by
  induction l with
  | nil => simp [sortRecDesc]
  | cons x xs ih => exact pairwise_insRec x _ ih

/-- C3 (confirmed): for every corpus and every behaviour of the
collaborator, the recommendation list returned by `run_analysis` has at
most 5 records and is sorted non-increasing by `totalScore`. -/
theorem run_output_sorted_top5 (g? : Option Graph) (expand : String → List String)
    (evalAI : StudentInfo → Course → ℚ × String) (courses : List Course)
    (major dm : String) (history : List String) (interest : Option String) :
    (run_analysis g? expand evalAI courses major dm history interest).1.length ≤ 5 ∧
    (run_analysis g? expand evalAI courses major dm history interest).1.Pairwise
      (fun a b => b.total ≤ a.total) := by
  simp only [run_analysis]
  by_cases h : (scoredRecs expand
      (evalAI (studentInfoOf (get_keywords_from_input g? major dm history interest) interest))
      (get_keywords_from_input g? major dm history interest) courses).isEmpty
  · rw [if_pos h]
    rw [List.isEmpty_iff] at h
    rw [h]
    simp
  · rw [if_neg h]
    constructor
    · exact List.length_take_le _ _
    · exact List.Pairwise.sublist (List.take_sublist 5 _) (pairwise_sortRecDesc _)

/-! ### C4: the expansion cache -/

/-- C4 counterexample: with a collaborator stub whose response text is
empty, the first call caches nothing and a second call for the same term
invokes the collaborator again — two underlying calls, where the claim
allows at most one. -/
theorem expand_cache_counterexample :
    (expand_keyword_with_gemini true (fun _ => ApiResult.returns "")
      (expand_keyword_with_gemini true (fun _ => ApiResult.returns "") ⟨[], 0⟩ "데이터").2
      "데이터").2.calls = 2 := by
  simp +decide [expand_keyword_with_gemini, alookup]

/-- C4 (corrected): the per-term cache prevents a second underlying call
only when the first call succeeded with a non-empty response (only that
outcome is cached); in that case two successive `expand` calls for the
same term invoke the collaborator at most once, the second being a cache
hit. A first call that raises or returns empty text caches nothing and a
repeat call re-invokes the collaborator. -/
theorem expand_cache_amended (hasClient : Bool) (gen : String → ApiResult)
    (st : ExpandState) (keyword t : String)
    (h1 : gen keyword = ApiResult.returns t) (h2 : t ≠ "") :
    (expand_keyword_with_gemini hasClient gen
        (expand_keyword_with_gemini hasClient gen st keyword).2 keyword).2.calls
      = (expand_keyword_with_gemini hasClient gen st keyword).2.calls ∧
    (expand_keyword_with_gemini hasClient gen st keyword).2.calls ≤ st.calls + 1 := by
  cases hasClient with
  | false => simp [expand_keyword_with_gemini]
  | true =>
    cases hc : alookup st.cache keyword with
    | some ws => simp [expand_keyword_with_gemini, hc]
    | none =>
      by_cases hs : keyword ∈ STOPWORDS
      · simp [expand_keyword_with_gemini, hc, hs]
      · simp [expand_keyword_with_gemini, hc, hs, h1, h2, alookup_aset_self]

/-- C4 witness: with a successful non-empty stub response, the second call
for the same term does not invoke the collaborator again. -/
theorem expand_cache_amended_witness :
    (expand_keyword_with_gemini true (fun _ => ApiResult.returns "xx,yy")
        (expand_keyword_with_gemini true (fun _ => ApiResult.returns "xx,yy") ⟨[], 0⟩ "데이터").2
        "데이터").2.calls
      = (expand_keyword_with_gemini true (fun _ => ApiResult.returns "xx,yy") ⟨[], 0⟩ "데이터").2.calls :=
  (expand_cache_amended true (fun _ => ApiResult.returns "xx,yy") ⟨[], 0⟩ "데이터" "xx,yy"
    rfl (by decide)).1

/-! ### C2: suitability percentage -/

theorem le_maxQ (l : List ℚ) (x : ℚ) (h : x ∈ l) : x ≤ maxQ l := by
  induction l with
  | nil => cases h
  | cons a t ih =>
    rcases List.mem_cons.mp h with rfl | h2
    · cases t with
      | nil => simp [maxQ]
      | cons b t' => exact le_max_left _ _
    · cases t with
      | nil => cases h2
      | cons b t' => exact le_trans (ih h2) (le_max_right _ _)

theorem ratTrunc_of_nonneg (q : ℚ) (h : 0 ≤ q) : ratTrunc q = ⌊q⌋ := by
  rw [ratTrunc, if_pos h]

/-- C2 (corrected): when every total score is non-negative (in particular
whenever course keyword weights and collaborator scores are non-negative;
the source trusts both without validation), normalization assigns every
record `suitabilityPercent = floor(totalScore / maxTotal * 95)` when
`maxTotal > 0` and 0 to every record when `maxTotal ≤ 0`, and every
`suitabilityPercent` lies in [0, 95]. Without the non-negativity premise a
record can receive a negative percentage that is moreover a truncation,
not a floor (see the counterexample). -/
theorem suitability_amended (expand : String → List String)
    (evalAI : Course → ℚ × String) (profile : KW) (courses : List Course)
    (hpos : ∀ r ∈ scoredRecs expand evalAI profile courses, 0 ≤ r.total) :
    ∀ r ∈ normalizeRecs (scoredRecs expand evalAI profile courses),
      (0 < maxQ ((scoredRecs expand evalAI profile courses).map Rec.total) →
        r.percent = ⌊r.total / maxQ ((scoredRecs expand evalAI profile courses).map Rec.total) * 95⌋) ∧
      (maxQ ((scoredRecs expand evalAI profile courses).map Rec.total) ≤ 0 →
        r.percent = 0) ∧
      0 ≤ r.percent ∧ r.percent ≤ 95 := by
  intro r hr
  simp only [normalizeRecs, List.mem_map] at hr
  obtain ⟨b, hb, rfl⟩ := hr
  dsimp only
  set m := maxQ ((scoredRecs expand evalAI profile courses).map Rec.total) with hmdef
  have hbt : b.total ≤ m := le_maxQ _ _ (List.mem_map_of_mem Rec.total hb)
  have hb0 : 0 ≤ b.total := hpos b hb
  by_cases hm : 0 < m
  · have hq0 : 0 ≤ b.total / m * 95 :=
      mul_nonneg (div_nonneg hb0 (le_of_lt hm)) (by norm_num)
    have hq95 : b.total / m * 95 ≤ 95 := by
      have hdiv : b.total / m ≤ 1 := (div_le_one hm).mpr hbt
      calc b.total / m * 95 ≤ 1 * 95 := mul_le_mul_of_nonneg_right hdiv (by norm_num)
        _ = 95 := one_mul _
    rw [if_pos hm, ratTrunc_of_nonneg _ hq0]
    refine ⟨fun _ => rfl, fun hle => absurd hm (not_lt.mpr hle),
      Int.floor_nonneg.mpr hq0, ?_⟩
    calc ⌊b.total / m * 95⌋ ≤ ⌊(95:ℚ)⌋ := Int.floor_le_floor hq95
      _ = 95 := by norm_num
  · rw [if_neg hm]
    exact ⟨fun hc => absurd hc hm, fun _ => rfl, le_refl 0, by norm_num⟩

/-- C2 counterexample: with the negative (trusted, unvalidated) keyword
weight of `cexCourseA`, record A gets totalScore -15/8 against maxTotal
15/4 and its percentage is `int(-47.5) = -47`: outside [0, 95] and not the
floor, which is -48. -/
theorem suitability_counterexample :
    ((run_analysis none (fun _ => []) cexAI [cexCourseA, cexCourseB]
        "abc" "없음" [] none).1.map Rec.percent = [95, -47]) ∧
    ⌊((-15/8 : ℚ) / (15/4)) * 95⌋ = -48 := by
  constructor
  · simp +decide [run_analysis, gk_none_eq, inputItems, interestSeed, aset,
      studentInfoOf, scoredRecs, scoreRec, calculate_ctwp_score, ct_score, ctTerms,
      keysOf, alookupD, alookup, get_idf_weight, wpLoop, wpInner, top5, sortByWeightDesc,
      insertByWeight, joinComma, normalizeRecs, maxQ, cexCourseA, cexCourseB, cexAI]
    norm_num [ratTrunc, insRec, sortRecDesc]
  · norm_num

/-- C2 witness: the amended theorem applied to a one-course corpus with
non-negative weights; the single record receives exactly 95 percent, inside
the claimed range. -/
theorem suitability_amended_witness :
    (0:ℤ) ≤ wRec.percent ∧ wRec.percent ≤ 95 := by
  have hpos : ∀ r ∈ scoredRecs (fun _ => []) (fun _ => ((0:ℚ), "r")) [("abc", 1)] [wCourse],
      0 ≤ r.total := by
    simp +decide [scoredRecs, scoreRec, calculate_ctwp_score, ct_score, ctTerms, keysOf,
      alookupD, alookup, get_idf_weight, wpLoop, wpInner, top5, sortByWeightDesc,
      insertByWeight, joinComma, wCourse]
  have heval : normalizeRecs (scoredRecs (fun _ => []) (fun _ => ((0:ℚ), "r"))
      [("abc", 1)] [wCourse]) = [wRec] := by
    simp +decide [normalizeRecs, scoredRecs, scoreRec, calculate_ctwp_score, ct_score,
      ctTerms, keysOf, alookupD, alookup, get_idf_weight, wpLoop, wpInner, top5,
      sortByWeightDesc, insertByWeight, joinComma, maxQ, wCourse]
    norm_num [ratTrunc, wRec]
  have hmem : wRec ∈ normalizeRecs (scoredRecs (fun _ => []) (fun _ => ((0:ℚ), "r"))
      [("abc", 1)] [wCourse]) := by
    rw [heval]
    exact List.mem_singleton.mpr rfl
  have h := suitability_amended (fun _ => []) (fun _ => ((0:ℚ), "r")) [("abc", 1)]
    [wCourse] hpos wRec hmem
  exact ⟨h.2.2.1, h.2.2.2⟩

/-! ### C7: the relevance evaluator degrades, never raises -/

/-- C7 counterexample: on malformed structured output whose score field is
present but not a number — a string, or null — the code returns the raw
value verbatim instead of a score of 0 with a failure reason:
`result.get("score", 0)` substitutes its default only for a missing key. -/
theorem evaluate_malformed_counterexample :
    evaluate_relevance_with_gemini true
        (EvalOutcome.returns (some (PyVal.str "high")) (some (PyVal.str "ok")))
      = (PyVal.str "high", PyVal.str "ok") ∧
    evaluate_relevance_with_gemini true (EvalOutcome.returns (some PyVal.null) none)
      = (PyVal.null, PyVal.str "분석 불가") :=
  ⟨rfl, rfl⟩

/-- C7 (corrected): `evaluate_relevance_with_gemini` is a total function —
it never raises. An absent client, or any exception in the call or in
handling the structured output (unparsable JSON, non-object JSON), returns
score 0 paired with a fixed failure-reason string; a parsed object with a
missing score field also gets score 0, with the reason defaulting to
"분석 불가" when it too is missing. However, a score field that is present
but malformed (null or non-numeric) is returned verbatim rather than as 0
(see the counterexample). -/
theorem evaluate_degrades_amended (hasClient : Bool) (outcome : EvalOutcome) :
    ((hasClient = false ∨ outcome = EvalOutcome.raises) →
      (evaluate_relevance_with_gemini hasClient outcome).1 = PyVal.num 0 ∧
      ((evaluate_relevance_with_gemini hasClient outcome).2 = PyVal.str "API 오류" ∨
       (evaluate_relevance_with_gemini hasClient outcome).2 = PyVal.str "AI 분석 실패")) ∧
    (∀ r, outcome = EvalOutcome.returns none r →
      (evaluate_relevance_with_gemini hasClient outcome).1 = PyVal.num 0) ∧
    (hasClient = true → outcome = EvalOutcome.returns none none →
      evaluate_relevance_with_gemini hasClient outcome
        = (PyVal.num 0, PyVal.str "분석 불가")) := by
  refine ⟨?_, ?_, ?_⟩
  · rintro (rfl | rfl)
    · exact ⟨rfl, Or.inl rfl⟩
    · cases hasClient
      · exact ⟨rfl, Or.inl rfl⟩
      · exact ⟨rfl, Or.inr rfl⟩
  · rintro r rfl
    cases hasClient
    · rfl
    · rfl
  · rintro rfl rfl
    rfl

/-- C7 witness: an exception with a present client yields score 0 with the
fixed failure reason, and a fully missing object body yields the defaults. -/
theorem evaluate_degrades_amended_witness :
    (evaluate_relevance_with_gemini true EvalOutcome.raises).1 = PyVal.num 0 ∧
    evaluate_relevance_with_gemini true (EvalOutcome.returns none none)
      = (PyVal.num 0, PyVal.str "분석 불가") :=
  ⟨((evaluate_degrades_amended true EvalOutcome.raises).1 (Or.inr rfl)).1,
   (evaluate_degrades_amended true (EvalOutcome.returns none none)).2.2 rfl rfl⟩

end Team404
